import Mathlib

/-!
# Verification of the WhatsApp transcript parser

Shallow embedding of the Python source.  The module defines a class
`WhatsAppParser` whose core is a single compiled regular expression

    TIMESTAMP_PATTERN =
      \[(?P<hora>\d{2}:\d{2}), (?P<data>\d{2}/\d{2}/\d{4})\]\s*
      [^:]+:\s*
      (?P<mensagem>.*?)(?=(?:\[\d{2}:\d{2}, \d{2}/\d{2}/\d{4}\])|$)
    with re.DOTALL

scanned over the raw text with `finditer`, grouping the `(hora, mensagem)`
pairs by `data` into an insertion-ordered dict, plus a markdown renderer.

The embedding below models text as `List Char` (wrapped in `String` at the
API boundary).  The regex is deterministic on every input, so it is embedded
as an explicit matching function:

* `timestampMarkerAt s q` — the literal bracketed `[\d\d:\d\d, \d\d/\d\d/\d\d\d\d]`
  marker (19 characters) matches at position `q`; this is both the anchoring
  prefix of `TIMESTAMP_PATTERN` and its lookahead terminator.
* after the marker, `\s*[^:]+:` succeeds exactly when the first colon `j` at
  or after the position `i` following the bracket exists and satisfies
  `j > i` (the greedy `\s*` and `[^:]+` cannot cross a colon, and whitespace
  characters are themselves non-colon characters, so backtracking resolves to
  exactly this condition);
* the greedy `\s*` after the colon takes the maximal whitespace run (the lazy
  body that follows can always be completed thanks to the `$` alternative of
  the lookahead, so the regex engine never backtracks into it; a marker never
  begins with a whitespace character, so the run cannot skip a terminator);
* the lazy `(?P<mensagem>.*?)` with the lookahead stops at the least position
  that begins a well-formed marker or satisfies Python's `$` (end of string,
  or just before a terminating newline — `re.MULTILINE` is not set).

Character-class caveat: Python's `\d`, `\s`, `str.strip` and `str.splitlines`
also accept some non-ASCII Unicode characters; the embedding models the ASCII
core (digits `0`-`9`, whitespace ` \t\n\r\x0b\x0c`, and the common line-break
characters for `splitlines`), which is exact on ASCII inputs.
-/

/-- Python `\s` / `str.strip` whitespace, ASCII core. -/
def pyIsSpace (c : Char) : Bool :=
  c == ' ' || c == '\t' || c == '\n' || c == '\r' || c == '\x0b' || c == '\x0c'

/-- `s[i]` is exactly the character `c` (false when out of range). -/
def charAt (s : List Char) (i : Nat) (c : Char) : Bool :=
  match s[i]? with
  | some c₀ => c₀ == c
  | none => false

/-- `s[i]` is an ASCII digit (regex `\d`; false when out of range). -/
def digitAt (s : List Char) (i : Nat) : Bool :=
  match s[i]? with
  | some c₀ => c₀.isDigit
  | none => false

/-- The bracketed timestamp marker
`\[\d{2}:\d{2}, \d{2}/\d{2}/\d{4}\]` of `TIMESTAMP_PATTERN` matches at
position `q` of `s`.  The marker is 19 characters long. -/
def timestampMarkerAt (s : List Char) (q : Nat) : Bool :=
  charAt s q '[' && digitAt s (q+1) && digitAt s (q+2) && charAt s (q+3) ':' &&
  digitAt s (q+4) && digitAt s (q+5) && charAt s (q+6) ',' && charAt s (q+7) ' ' &&
  digitAt s (q+8) && digitAt s (q+9) && charAt s (q+10) '/' &&
  digitAt s (q+11) && digitAt s (q+12) && charAt s (q+13) '/' &&
  digitAt s (q+14) && digitAt s (q+15) && digitAt s (q+16) && digitAt s (q+17) &&
  charAt s (q+18) ']'

/-- Least position `j ≥ i` with `j < s.length` satisfying `P`, if any. -/
def findPos (P : Nat → Bool) (s : List Char) (i : Nat) : Option Nat :=
  (List.range' i (s.length - i)).find? P

/-- The slice `s[i:j]` (as in Python slicing; empty when `j ≤ i`). -/
def sub (s : List Char) (i j : Nat) : List Char :=
  (s.drop i).take (j - i)

/-- `s[j]` exists and is not whitespace. -/
def nonWsAt (s : List Char) (j : Nat) : Bool :=
  match s[j]? with
  | some c₀ => !pyIsSpace c₀
  | none => false

/-- End of the maximal whitespace run starting at `i`: the least `j ≥ i`
holding a non-whitespace character, or `s.length` when the run reaches the
end.  This is where a greedy `\s*` starting at `i` stops. -/
def wsEnd (s : List Char) (i : Nat) : Nat :=
  match findPos (nonWsAt s) s i with
  | some j => j
  | none => s.length

/-- Python `$` (no `re.MULTILINE`) holds strictly before the end of the
string only at a final newline. -/
def dollarNlAt (s : List Char) (e : Nat) : Bool :=
  (e + 1 == s.length) && charAt s e '\n'

/-- Where the lazy `(?P<mensagem>.*?)(?=marker|$)` capture starting at `k`
stops: the least `e ≥ k` that begins a well-formed timestamp marker or
satisfies `$`; position `s.length` always satisfies `$`. -/
def bodyEnd (s : List Char) (k : Nat) : Nat :=
  match findPos (fun e => timestampMarkerAt s e || dollarNlAt s e) s k with
  | some e => e
  | none => s.length

/-- One match of `TIMESTAMP_PATTERN`: the three named groups (`hora`,
`data`, `mensagem`, all raw, before `str.strip`) and the end position of the
whole match (where `finditer` resumes). -/
structure RegexMatch where
  hora : List Char
  data : List Char
  mensagem : List Char
  mend : Nat
deriving DecidableEq

/-- Attempt to match `TIMESTAMP_PATTERN` anchored at position `q`:
the 19-character marker, then `\s*[^:]+:` (first colon `j` strictly after the
position `q+19` following the bracket), then the greedy `\s*`, then the lazy
body up to the lookahead. -/
def matchTimestampAt (s : List Char) (q : Nat) : Option RegexMatch :=
  if timestampMarkerAt s q then
    match findPos (fun j => charAt s j ':') s (q + 19) with
    | none => none
    | some j =>
      if j = q + 19 then none
      else
        let k := wsEnd s (j + 1)
        let e := bodyEnd s k
        some ⟨sub s (q+1) (q+6), sub s (q+8) (q+18), sub s k e, e⟩
  else none

/-- Python `str.strip()` (ASCII whitespace model). -/
def pyStrip (l : List Char) : List Char :=
  ((l.dropWhile pyIsSpace).reverse.dropWhile pyIsSpace).reverse

/-- The `finditer` loop: from position `p`, find the least position admitting
a full match, emit it, resume at its end.  Matches are at least 21 characters
long, so the position strictly increases and `s.length + 1` steps of fuel
always suffice (`scanTimestampsAux_congr` below). -/
def scanTimestampsAux (s : List Char) : Nat → Nat → List RegexMatch
  | 0, _ => []
  | fuel + 1, p =>
    match findPos (fun q => (matchTimestampAt s q).isSome) s p with
    | none => []
    | some q =>
      match matchTimestampAt s q with
      | none => []
      | some m => m :: scanTimestampsAux s fuel m.mend

/-- All matches of `TIMESTAMP_PATTERN.finditer(raw_text)` in order. -/
def finditerTimestamps (s : List Char) : List RegexMatch :=
  scanTimestampsAux s (s.length + 1) 0

/-- One `(hora, mensagem)` record. -/
abbrev Record := String × String

/-- The insertion-ordered dict `{data: [(hora, mensagem), ...]}` that
`WhatsAppParser.parse` returns, as an association list (Python dicts preserve
first-insertion key order; values keep append order). -/
abbrev Messages := List (String × List Record)

/-- `agrupado[data].append((hora, mensagem))` on a `defaultdict(list)`:
append to the existing key, else add the key at the end. -/
def insertRecord (ag : Messages) (d : String) (r : Record) : Messages :=
  match ag with
  | [] => [(d, [r])]
  | (k, rs) :: rest =>
    if k = d then (k, rs ++ [r]) :: rest
    else (k, rs) :: insertRecord rest d r

/-- The body of `WhatsAppParser.parse`: run `finditer`, strip each message
body, group by date.  This is the mapping the method stores in
`self.messages` and returns. -/
def parseMessages (raw_text : String) : Messages :=
  (finditerTimestamps raw_text.data).foldl
    (fun ag m => insertRecord ag (String.mk m.data)
      (String.mk m.hora, String.mk (pyStrip m.mensagem))) []

/-- Python `str.splitlines` line-break characters (common subset: the ASCII
breaks plus NEL and the Unicode line/paragraph separators). -/
def isPyLineBreak (c : Char) : Bool :=
  c == '\n' || c == '\r' || c == '\x0b' || c == '\x0c' ||
  c == '\x1c' || c == '\x1d' || c == '\x1e' || c == '\x85' ||
  c == '\u2028' || c == '\u2029'

/-- After consuming a line-break character `c`, what remains of the text:
a `'\n'` directly following a `'\r'` belongs to the same `\r\n` break and is
consumed with it. -/
def dropAfterCR (c : Char) (t : List Char) : List Char :=
  if c = '\r' then
    match t with
    | c₂ :: t₂ => if c₂ = '\n' then t₂ else t
    | [] => t
  else t

/-- Worker for `str.splitlines()` (keepends `False`): `acc` is the reversed
current line; `\r\n` counts as a single break; a break at the very end does
not open a final empty line. -/
def splitlinesAux : List Char → List Char → List (List Char)
  | [], acc => [acc.reverse]
  | c :: t, acc =>
    if isPyLineBreak c then
      acc.reverse ::
        (if (dropAfterCR c t).isEmpty then [] else splitlinesAux (dropAfterCR c t) [])
    else splitlinesAux t (c :: acc)
termination_by s _ => s.length
decreasing_by
  · have hle : (dropAfterCR c t).length ≤ t.length := by
      unfold dropAfterCR
      split
      · split
        · split
          · simp
          · exact Nat.le_refl _
        · exact Nat.le_refl _
      · exact Nat.le_refl _
    simp
    omega
  · simp

/-- Python `str.splitlines()`; the empty string yields no lines. -/
def pySplitlines (l : List Char) : List (List Char) :=
  match l with
  | [] => []
  | _ => splitlinesAux l []

/-- The lines `to_markdown` appends for one record: `- **{hora}**`, then each
line of the (possibly multi-line) body indented by two spaces. -/
def recordMdLines (r : Record) : List (List Char) :=
  ("- **".data ++ r.1.data ++ "**".data) ::
    (pySplitlines r.2.data).map (fun line => "  ".data ++ line)

/-- The lines `to_markdown` appends for one date group: the `## {data}`
header, the record lines, and a closing empty line. -/
def groupMdLines (g : String × List Record) : List (List Char) :=
  ("## ".data ++ g.1.data) :: ((g.2.map recordMdLines).flatten ++ [[]])

/-- Python `"\n".join(lines)`. -/
def joinNl : List (List Char) → List Char
  | [] => []
  | [l] => l
  | l :: ls => l ++ '\n' :: joinNl ls

/-- The body of `WhatsAppParser.to_markdown`, as a function of the stored
mapping: empty string for an empty mapping, else the markdown lines joined
with `"\n"`. -/
def toMarkdownOf (messages : Messages) : String :=
  if messages.isEmpty then ""
  else String.mk (joinNl ((messages.map groupMdLines).flatten))

/-- The mutable state of a `WhatsAppParser` instance: the `raw_text` passed
to the constructor (`None` when omitted) and the parsed `messages` dict. -/
structure WhatsAppParser where
  raw_text : Option String
  messages : Messages
deriving DecidableEq

/-- `__init__`: store `raw_text`, start with empty `messages`, and when
`raw_text` is not `None` immediately run `parse` on it (which stores its
result in `messages`). -/
def WhatsAppParser.init (raw_text : Option String) : WhatsAppParser :=
  match raw_text with
  | none => ⟨none, []⟩
  | some t => ⟨some t, parseMessages t⟩

/-- The `parse` method: computes the grouped mapping of `raw_text`, assigns
it to `self.messages` (replacing the previous value) and returns it.  The
result is the updated instance together with the returned mapping. -/
def WhatsAppParser.parse (p : WhatsAppParser) (raw_text : String) :
    WhatsAppParser × Messages :=
  (⟨p.raw_text, parseMessages raw_text⟩, parseMessages raw_text)

/-- The `to_markdown` method reads `self.messages`. -/
def WhatsAppParser.to_markdown (p : WhatsAppParser) : String :=
  toMarkdownOf p.messages

/-- Splitting rendered text back into its lines: split on the join
separator `'\n'` (`"".split` style: the empty text is one empty line). -/
def splitNlAux : List Char → List Char → List (List Char)
  | [], acc => [acc.reverse]
  | c :: t, acc =>
    if c = '\n' then acc.reverse :: splitNlAux t []
    else splitNlAux t (c :: acc)

/-- All `'\n'`-separated lines of a rendered text. -/
def splitNl (l : List Char) : List (List Char) :=
  splitNlAux l []

/-- How many lines of `text` start with `pre` — used to re-derive the number
of date headers (`"## "`) and time markers (`"- **"`) from rendered
markdown. -/
def countPrefixLines (pre : String) (text : String) : Nat :=
  ((splitNl text.data).filter (fun line => pre.data.isPrefixOf line)).length

/-- A lexically well-formed `DD/MM/YYYY` date key (the shape every
`ParsedTranscript` key has; range validity is deliberately not checked). -/
def dateKeyWF (d : String) : Bool :=
  match d.data with
  | [d1, d2, s1, m1, m2, s2, y1, y2, y3, y4] =>
    d1.isDigit && d2.isDigit && s1 == '/' && m1.isDigit && m2.isDigit &&
    s2 == '/' && y1.isDigit && y2.isDigit && y3.isDigit && y4.isDigit
  | _ => false

/-- A lexically well-formed `HH:MM` record time. -/
def timeWF (t : String) : Bool :=
  match t.data with
  | [h1, h2, s1, m1, m2] =>
    h1.isDigit && h2.isDigit && s1 == ':' && m1.isDigit && m2.isDigit
  | _ => false

/-! ## Position-search lemmas -/

/-- Characterization of `find?` over a contiguous range of positions: it
returns exactly the least position in the range satisfying `P`. -/
theorem find?_range'_eq_some_iff {P : Nat → Bool} :
    ∀ {n i q : Nat}, ((List.range' i n).find? P = some q ↔
      (i ≤ q ∧ q < i + n ∧ P q = true ∧ ∀ x, i ≤ x → x < q → P x = false)) := by
  intro n
  induction n with
  | zero =>
    intro i q
    constructor
    · intro h; simp [List.range'] at h
    · rintro ⟨h1, h2, -, -⟩; omega
  | succ n ih =>
    intro i q
    rw [List.range'_succ]
    cases hPi : P i with
    | true =>
      rw [List.find?_cons_of_pos _ hPi]
      constructor
      · intro h
        have hq : q = i := by injection h with h; omega
        subst hq
        exact ⟨Nat.le_refl _, by omega, hPi, fun x hx hx2 => by omega⟩
      · rintro ⟨h1, h2, h3, h4⟩
        have hq : q = i := by
          by_contra hne
          have hiq : i < q := by omega
          have := h4 i (Nat.le_refl _) hiq
          rw [hPi] at this; cases this
        subst hq; rfl
    | false =>
      rw [List.find?_cons_of_neg _ (by simp [hPi])]
      rw [ih]
      constructor
      · rintro ⟨h1, h2, h3, h4⟩
        refine ⟨by omega, by omega, h3, fun x hx hx2 => ?_⟩
        by_cases hxi : x = i
        · subst hxi; exact hPi
        · exact h4 x (by omega) hx2
      · rintro ⟨h1, h2, h3, h4⟩
        have hiq : i ≠ q := by
          intro h; subst h; rw [hPi] at h3; cases h3
        exact ⟨by omega, by omega, h3, fun x hx hx2 => h4 x (by omega) hx2⟩

/-- `findPos` returns exactly the least position `q` in `[i, s.length)`
satisfying `P`. -/
theorem findPos_eq_some_iff {P : Nat → Bool} {s : List Char} {i q : Nat} :
    findPos P s i = some q ↔
      (i ≤ q ∧ q < s.length ∧ P q = true ∧ ∀ x, i ≤ x → x < q → P x = false) := by
  unfold findPos
  rw [find?_range'_eq_some_iff]
  constructor
  · rintro ⟨h1, h2, h3, h4⟩; exact ⟨h1, by omega, h3, h4⟩
  · rintro ⟨h1, h2, h3, h4⟩; exact ⟨h1, by omega, h3, h4⟩

/-- `findPos` fails exactly when no position in `[i, s.length)` satisfies
`P`. -/
theorem findPos_eq_none_iff {P : Nat → Bool} {s : List Char} {i : Nat} :
    findPos P s i = none ↔ ∀ x, i ≤ x → x < s.length → P x = false := by
  unfold findPos
  rw [List.find?_eq_none]
  constructor
  · intro h x h1 h2
    have hm : x ∈ List.range' i (s.length - i) := by
      rw [List.mem_range'_1]; omega
    simpa using h x hm
  · intro h x hm
    rw [List.mem_range'_1] at hm
    simp [h x hm.1 (by omega)]

/-! ## Character and marker lemmas -/

theorem charAt_eq_true {s : List Char} {i : Nat} {c : Char} :
    charAt s i c = true ↔ s[i]? = some c := by
  unfold charAt
  cases h : s[i]? with
  | none => simp
  | some c₀ => simp [beq_iff_eq]

theorem charAt_lt_length {s : List Char} {i : Nat} {c : Char}
    (h : charAt s i c = true) : i < s.length := by
  rw [charAt_eq_true] at h
  rw [List.getElem?_eq_some] at h
  exact h.1

/-- A well-formed marker occupies positions `q` through `q+18`, so it needs
19 characters of room. -/
theorem timestampMarkerAt_length {s : List Char} {q : Nat}
    (h : timestampMarkerAt s q = true) : q + 19 ≤ s.length := by
  unfold timestampMarkerAt at h
  simp only [Bool.and_eq_true] at h
  have := charAt_lt_length h.2
  omega

/-! ## Whitespace-run and body-terminator lemmas -/

theorem wsEnd_le (s : List Char) (i : Nat) : wsEnd s i ≤ s.length := by
  unfold wsEnd
  cases h : findPos (nonWsAt s) s i with
  | none => exact Nat.le_refl _
  | some j => exact Nat.le_of_lt (findPos_eq_some_iff.mp h).2.1

theorem wsEnd_ge {s : List Char} {i : Nat} (h : i ≤ s.length) : i ≤ wsEnd s i := by
  unfold wsEnd
  cases hf : findPos (nonWsAt s) s i with
  | none => exact h
  | some j => exact (findPos_eq_some_iff.mp hf).1

/-- Every position strictly inside the whitespace run holds a whitespace
character. -/
theorem wsEnd_ws {s : List Char} {i x : Nat} (h1 : i ≤ x) (h2 : x < wsEnd s i) :
    ∃ c, s[x]? = some c ∧ pyIsSpace c = true := by
  have key : ∀ (hx : x < s.length), nonWsAt s x = false →
      ∃ c, s[x]? = some c ∧ pyIsSpace c = true := by
    intro hx hnw
    refine ⟨s[x], List.getElem?_eq_getElem hx, ?_⟩
    unfold nonWsAt at hnw
    rw [List.getElem?_eq_getElem hx] at hnw
    simpa using hnw
  cases hf : findPos (nonWsAt s) s i with
  | none =>
    have hw : wsEnd s i = s.length := by unfold wsEnd; rw [hf]
    rw [hw] at h2
    exact key h2 ((findPos_eq_none_iff.mp hf) x h1 h2)
  | some j =>
    have hw : wsEnd s i = j := by unfold wsEnd; rw [hf]
    rw [hw] at h2
    obtain ⟨-, hjlen, -, hmin⟩ := findPos_eq_some_iff.mp hf
    exact key (by omega) (hmin x h1 h2)

theorem bodyEnd_le (s : List Char) (k : Nat) : bodyEnd s k ≤ s.length := by
  unfold bodyEnd
  cases h : findPos (fun e => timestampMarkerAt s e || dollarNlAt s e) s k with
  | none => exact Nat.le_refl _
  | some e => exact Nat.le_of_lt (findPos_eq_some_iff.mp h).2.1

theorem bodyEnd_ge {s : List Char} {k : Nat} (h : k ≤ s.length) : k ≤ bodyEnd s k := by
  unfold bodyEnd
  cases hf : findPos (fun e => timestampMarkerAt s e || dollarNlAt s e) s k with
  | none => exact h
  | some e => exact (findPos_eq_some_iff.mp hf).1

/-! ## Match lemmas -/

theorem matchTimestampAt_eq_none {s : List Char} {q : Nat}
    (h : timestampMarkerAt s q = false) : matchTimestampAt s q = none := by
  unfold matchTimestampAt
  rw [h]
  rfl

/-- Shape of a successful match: the groups are the slices of the source
dictated by `TIMESTAMP_PATTERN`, and the match ends at the body terminator. -/
theorem matchTimestampAt_elim {s : List Char} {q : Nat} {m : RegexMatch}
    (h : matchTimestampAt s q = some m) :
    timestampMarkerAt s q = true ∧
    ∃ j, findPos (fun j => charAt s j ':') s (q + 19) = some j ∧ j ≠ q + 19 ∧
      m = ⟨sub s (q+1) (q+6), sub s (q+8) (q+18),
           sub s (wsEnd s (j+1)) (bodyEnd s (wsEnd s (j+1))),
           bodyEnd s (wsEnd s (j+1))⟩ := by
  unfold matchTimestampAt at h
  split at h
  · rename_i hb
    split at h
    · cases h
    · rename_i j hf
      split at h
      · cases h
      · rename_i hj
        simp only [Option.some.injEq] at h
        exact ⟨hb, j, hf, hj, h.symm⟩
  · cases h

/-- A successful match spans at least 21 characters past its start and stays
inside the string. -/
theorem matchTimestampAt_mend {s : List Char} {q : Nat} {m : RegexMatch}
    (h : matchTimestampAt s q = some m) :
    q + 21 ≤ m.mend ∧ m.mend ≤ s.length := by
  obtain ⟨hmark, j, hj, hjne, hm⟩ := matchTimestampAt_elim h
  obtain ⟨hj1, hj2, -, -⟩ := findPos_eq_some_iff.mp hj
  have hw1 : j + 1 ≤ wsEnd s (j+1) := wsEnd_ge (by omega)
  have hw2 : wsEnd s (j+1) ≤ s.length := wsEnd_le s (j+1)
  have hb1 : wsEnd s (j+1) ≤ bodyEnd s (wsEnd s (j+1)) := bodyEnd_ge hw2
  have hb2 : bodyEnd s (wsEnd s (j+1)) ≤ s.length := bodyEnd_le s _
  subst hm
  simp only
  omega

/-! ## Scanner lemmas -/

/-- Definitional unfolding of one scanner step. -/
theorem scanTimestampsAux_succ (s : List Char) (fuel p : Nat) :
    scanTimestampsAux s (fuel + 1) p =
      match findPos (fun q => (matchTimestampAt s q).isSome) s p with
      | none => []
      | some q =>
        match matchTimestampAt s q with
        | none => []
        | some m => m :: scanTimestampsAux s fuel m.mend := rfl

/-- With no marker at or after `p` the scanner emits nothing. -/
theorem scanTimestampsAux_eq_nil {s : List Char} {fuel p : Nat}
    (h : ∀ x, p ≤ x → timestampMarkerAt s x = false) :
    scanTimestampsAux s fuel p = [] := by
  cases fuel with
  | zero => rfl
  | succ n =>
    rw [scanTimestampsAux_succ]
    have hfind : findPos (fun q => (matchTimestampAt s q).isSome) s p = none := by
      rw [findPos_eq_none_iff]
      intro x h1 h2
      rw [matchTimestampAt_eq_none (h x h1)]
      rfl
    rw [hfind]

/-- Every match the scanner emits is a real match of the pattern at some
position at or after the scanning start. -/
theorem scanTimestampsAux_mem {s : List Char} :
    ∀ {fuel p : Nat} {m : RegexMatch}, m ∈ scanTimestampsAux s fuel p →
      ∃ q, p ≤ q ∧ matchTimestampAt s q = some m := by
  intro fuel
  induction fuel with
  | zero => intro p m h; cases h
  | succ n ih =>
    intro p m h
    rw [scanTimestampsAux_succ] at h
    split at h
    · cases h
    · rename_i q hfind
      split at h
      · cases h
      · rename_i m₀ hm
        obtain ⟨hq1, -, -, -⟩ := findPos_eq_some_iff.mp hfind
        rcases List.mem_cons.mp h with h | h
        · subst h; exact ⟨q, hq1, hm⟩
        · obtain ⟨q₂, hq₂, hm₂⟩ := ih h
          have := (matchTimestampAt_mend hm).1
          exact ⟨q₂, by omega, hm₂⟩

/-- The scanner result does not depend on the fuel, as long as the fuel
exceeds the number of remaining positions: each match consumes at least one
position.  In particular `finditerTimestamps`'s fuel of `s.length + 1` is
always sufficient. -/
theorem scanTimestampsAux_congr {s : List Char} :
    ∀ f₁ f₂ p : Nat, s.length - p < f₁ → s.length - p < f₂ →
      scanTimestampsAux s f₁ p = scanTimestampsAux s f₂ p := by
  intro f₁
  induction f₁ with
  | zero => intro f₂ p h1 h2; omega
  | succ n ih =>
    intro f₂ p h1 h2
    cases f₂ with
    | zero => omega
    | succ n₂ =>
      rw [scanTimestampsAux_succ, scanTimestampsAux_succ]
      split
      · rfl
      · rename_i q hfind
        split
        · rfl
        · rename_i m hm
          obtain ⟨hq1, hq2, -, -⟩ := findPos_eq_some_iff.mp hfind
          obtain ⟨he1, he2⟩ := matchTimestampAt_mend hm
          rw [ih n₂ m.mend (by omega) (by omega)]

/-- A marker cannot match at or past the end of the string. -/
theorem timestampMarkerAt_ge {s : List Char} {q : Nat} (h : s.length ≤ q) :
    timestampMarkerAt s q = false := by
  cases hb : timestampMarkerAt s q with
  | false => rfl
  | true => have := timestampMarkerAt_length hb; omega

/-! ## Claims -/

/-- **C3.** The body capture spans newlines: on
`"[09:00, 01/01/2024] A: line1\nline2\n[09:05, 01/01/2024] B: next"` the
parser returns exactly one date key `"01/01/2024"` whose list is exactly
`[("09:00", "line1\nline2"), ("09:05", "next")]`. -/
theorem parse_multiline_body_example :
    parseMessages "[09:00, 01/01/2024] A: line1\nline2\n[09:05, 01/01/2024] B: next" =
      [("01/01/2024", [("09:00", "line1\nline2"), ("09:05", "next")])] := by
  decide

/-- **C7.** A record whose marker and author-colon separator are followed by
no body text is stored with body `""`, not omitted. -/
theorem parse_empty_body_example :
    parseMessages "[10:00, 02/02/2024] A: " = [("02/02/2024", [("10:00", "")])] := by
  decide

/-- **C6.** For every input containing zero valid timestamp markers, `parse`
returns the empty mapping (a position at or past the end can never hold a
marker, so quantifying over positions inside the text is exhaustive); the
embedding is a total function, so no exception is possible. -/
theorem parse_no_marker_yields_empty (raw_text : String)
    (h : ∀ q, q < raw_text.data.length → timestampMarkerAt raw_text.data q = false) :
    parseMessages raw_text = [] := by
  have h' : ∀ q, (0:Nat) ≤ q → timestampMarkerAt raw_text.data q = false := by
    intro q _
    by_cases hq : q < raw_text.data.length
    · exact h q hq
    · exact timestampMarkerAt_ge (by omega)
  unfold parseMessages finditerTimestamps
  rw [scanTimestampsAux_eq_nil h']
  rfl

theorem parse_no_marker_yields_empty_witness :
    (∀ q, q < ("no valid [12:34 marker] here").data.length →
      timestampMarkerAt ("no valid [12:34 marker] here").data q = false) ∧
    parseMessages "no valid [12:34 marker] here" = [] :=
  ⟨by decide, parse_no_marker_yields_empty "no valid [12:34 marker] here" (by decide)⟩

/-- **C9.** A fresh `parse` call fully replaces any prior parsed state on the
same instance: after `parse t1` then `parse t2`, the stored `messages` equal
those of `parse t2` on a freshly constructed instance, and no records
accumulate. -/
theorem parse_replaces_prior_state (p : WhatsAppParser) (t1 t2 : String) :
    ((p.parse t1).1.parse t2).1.messages = ((WhatsAppParser.init none).parse t2).1.messages ∧
    ((p.parse t1).1.parse t2).1.messages = parseMessages t2 :=
  ⟨rfl, rfl⟩

/-- **C10.** Constructing without raw text leaves `messages` empty (so
rendering before any parse yields `""`); constructing with `raw_text` stores
the same `messages` as constructing empty and then calling `parse`; and in
both paths `parse`'s return value equals the instance's stored `messages`. -/
theorem init_construction_paths :
    (WhatsAppParser.init none).messages = [] ∧
    (WhatsAppParser.init none).to_markdown = "" ∧
    (∀ t : String, (WhatsAppParser.init (some t)).messages =
      ((WhatsAppParser.init none).parse t).1.messages) ∧
    (∀ (p : WhatsAppParser) (t : String), (p.parse t).2 = (p.parse t).1.messages) :=
  ⟨rfl, rfl, fun _ => rfl, fun _ _ => rfl⟩

/-- **C1 (counterexample).** On this input the only well-formed marker is at
position 0 (the second bracket has a one-digit hour, so it matches nowhere,
as the `List.all` conjunct certifies), yet the malformed span
`"[9:05, 01/01/2024] B: second"` is appended to the preceding message's
body, contradicting the claim that unmatched spans are never appended to a
neighboring record. -/
theorem malformed_span_appended_cex :
    parseMessages "[09:00, 01/01/2024] A: first [9:05, 01/01/2024] B: second" =
      [("01/01/2024", [("09:00", "first " ++ "[9:05, 01/01/2024] B: second")])] ∧
    (List.range ("[09:00, 01/01/2024] A: first [9:05, 01/01/2024] B: second").data.length).all
      (fun q => q == 0 ||
        !(timestampMarkerAt ("[09:00, 01/01/2024] A: first [9:05, 01/01/2024] B: second").data q)) = true := by
  constructor
  · decide
  · decide

/-- **C1 (amended).** A position that does not carry a well-formed marker
anchors no match of `TIMESTAMP_PATTERN`, hence produces no record of its own;
however (see the counterexample) a malformed marker that follows a valid
message is captured into that preceding message's body — only spans covered
by no match at all are silently dropped. -/
theorem malformed_marker_anchors_no_match {s : List Char} {q : Nat}
    (h : timestampMarkerAt s q = false) : matchTimestampAt s q = none :=
  matchTimestampAt_eq_none h

theorem malformed_marker_anchors_no_match_witness :
    timestampMarkerAt ("[9:05, 01/01/2024] B: second").data 0 = false ∧
    matchTimestampAt ("[9:05, 01/01/2024] B: second").data 0 = none :=
  ⟨by decide, malformed_marker_anchors_no_match (by decide)⟩

/-- **C4.** Appearance order is preserved without sorting or deduplication:
when the scanner yields matches carrying dates `d₁`, `d₂`, `d₁` again (with
`d₁ ≠ d₂`), the mapping's key order is `[d₁, d₂]` (first-seen, not sorted)
and the `d₁` entry holds both `d₁` records in their original relative
order. -/
theorem parse_preserves_order (raw_text : String) (m₁ m₂ m₃ : RegexMatch)
    (d₁ d₂ : List Char) (hne : d₁ ≠ d₂)
    (hscan : finditerTimestamps raw_text.data = [m₁, m₂, m₃])
    (h1 : m₁.data = d₁) (h2 : m₂.data = d₂) (h3 : m₃.data = d₁) :
    parseMessages raw_text =
      [(String.mk d₁, [(String.mk m₁.hora, String.mk (pyStrip m₁.mensagem)),
                       (String.mk m₃.hora, String.mk (pyStrip m₃.mensagem))]),
       (String.mk d₂, [(String.mk m₂.hora, String.mk (pyStrip m₂.mensagem))])] := by
  have hne' : String.mk d₁ ≠ String.mk d₂ := fun hc => hne (by injection hc)
  unfold parseMessages
  rw [hscan]
  simp only [List.foldl_cons, List.foldl_nil]
  rw [h1, h2, h3]
  simp [insertRecord, hne']

theorem parse_preserves_order_witness :
    ("01/01/2024").data ≠ ("02/01/2024").data ∧
    finditerTimestamps ("[09:00, 01/01/2024] A: a\n[09:10, 02/01/2024] B: b\n[09:20, 01/01/2024] C: c").data =
      [⟨("09:00").data, ("01/01/2024").data, ("a\n").data, 25⟩,
       ⟨("09:10").data, ("02/01/2024").data, ("b\n").data, 50⟩,
       ⟨("09:20").data, ("01/01/2024").data, ("c").data, 74⟩] ∧
    parseMessages "[09:00, 01/01/2024] A: a\n[09:10, 02/01/2024] B: b\n[09:20, 01/01/2024] C: c" =
      [("01/01/2024", [("09:00", "a"), ("09:20", "c")]),
       ("02/01/2024", [("09:10", "b")])] :=
  ⟨by decide, by decide, by
    exact parse_preserves_order
      "[09:00, 01/01/2024] A: a\n[09:10, 02/01/2024] B: b\n[09:20, 01/01/2024] C: c"
      ⟨("09:00").data, ("01/01/2024").data, ("a\n").data, 25⟩
      ⟨("09:10").data, ("02/01/2024").data, ("b\n").data, 50⟩
      ⟨("09:20").data, ("01/01/2024").data, ("c").data, 74⟩
      ("01/01/2024").data ("02/01/2024").data
      (by decide) (by decide) rfl rfl rfl⟩

/-! ## Slice decomposition lemmas (for the literal-timestamp invariant) -/

/-- Splitting a slice at an intermediate position. -/
theorem sub_append {s : List Char} {i j k : Nat} (h1 : i ≤ j) (h2 : j ≤ k) :
    sub s i k = sub s i j ++ sub s j k := by
  unfold sub
  have hk : k - i = (j - i) + (k - j) := by omega
  rw [hk, List.take_add]
  congr 2
  rw [List.drop_drop]
  congr 1
  omega

/-- A one-character slice at an in-range position. -/
theorem sub_singleton {s : List Char} {i : Nat} {c : Char} (h : s[i]? = some c) :
    sub s i (i+1) = [c] := by
  unfold sub
  rw [List.getElem?_eq_some] at h
  obtain ⟨hlt, hv⟩ := h
  rw [List.drop_eq_getElem_cons hlt]
  simp [hv]

/-- Every slice is an infix of the whole string. -/
theorem sub_isInfix (s : List Char) (i j : Nat) : List.IsInfix (sub s i j) s := by
  refine ⟨s.take i, (s.drop i).drop (j - i), ?_⟩
  rw [List.append_assoc]
  unfold sub
  rw [List.take_append_drop, List.take_append_drop]

/-- At a well-formed marker position, the 19-character slice of the source
decomposes literally as `'[' ++ hora ++ ", " ++ data ++ "]"`, where `hora`
and `data` are exactly the slices captured by the two groups. -/
theorem marker_slice_decomposition {s : List Char} {q : Nat}
    (h : timestampMarkerAt s q = true) :
    sub s q (q + 19) =
      '[' :: (sub s (q+1) (q+6) ++ ',' :: ' ' :: (sub s (q+8) (q+18) ++ [']'])) := by
  unfold timestampMarkerAt at h
  simp only [Bool.and_eq_true] at h
  obtain ⟨⟨⟨⟨⟨⟨⟨⟨⟨⟨⟨⟨⟨⟨⟨⟨⟨⟨hq, h1⟩, h2⟩, h3⟩, h4⟩, h5⟩, h6⟩, h7⟩, h8⟩, h9⟩, h10⟩,
    h11⟩, h12⟩, h13⟩, h14⟩, h15⟩, h16⟩, h17⟩, h18⟩ := h
  have e0 : sub s q (q+1) = ['['] := sub_singleton (charAt_eq_true.mp hq)
  have e6 : sub s (q+6) (q+7) = [','] := by
    have := sub_singleton (charAt_eq_true.mp h6)
    simpa using this
  have e7 : sub s (q+7) (q+8) = [' '] := by
    have := sub_singleton (charAt_eq_true.mp h7)
    simpa using this
  have e18 : sub s (q+18) (q+19) = [']'] := by
    have := sub_singleton (charAt_eq_true.mp h18)
    simpa using this
  have split1 : sub s q (q+19) = sub s q (q+1) ++ sub s (q+1) (q+19) :=
    sub_append (by omega) (by omega)
  have split2 : sub s (q+1) (q+19) = sub s (q+1) (q+6) ++ sub s (q+6) (q+19) :=
    sub_append (by omega) (by omega)
  have split3 : sub s (q+6) (q+19) = sub s (q+6) (q+7) ++ sub s (q+7) (q+19) :=
    sub_append (by omega) (by omega)
  have split4 : sub s (q+7) (q+19) = sub s (q+7) (q+8) ++ sub s (q+8) (q+19) :=
    sub_append (by omega) (by omega)
  have split5 : sub s (q+8) (q+19) = sub s (q+8) (q+18) ++ sub s (q+18) (q+19) :=
    sub_append (by omega) (by omega)
  rw [split1, split2, split3, split4, split5, e0, e6, e7, e18]
  simp

/-! ## Grouping-fold membership lemmas -/

/-- Where a record inside `insertRecord`'s output comes from: either it was
already in the accumulator under the same key, or it is the record just
inserted under exactly its key. -/
theorem mem_insertRecord {ag : Messages} {d₀ : String} {r₀ : Record}
    {d : String} {recs : List Record} {r : Record}
    (h : (d, recs) ∈ insertRecord ag d₀ r₀) (hr : r ∈ recs) :
    (∃ recs₀, (d, recs₀) ∈ ag ∧ r ∈ recs₀) ∨ (d = d₀ ∧ r = r₀) := by
  induction ag with
  | nil =>
    simp only [insertRecord, List.mem_singleton] at h
    obtain ⟨hd, hrecs⟩ := Prod.ext_iff.mp h
    simp only at hd hrecs
    subst hd
    subst hrecs
    right
    exact ⟨rfl, by simpa using hr⟩
  | cons hd tl ih =>
    obtain ⟨k, rs⟩ := hd
    unfold insertRecord at h
    by_cases hk : k = d₀
    · rw [if_pos hk] at h
      rcases List.mem_cons.mp h with h | h
      · obtain ⟨hd, hrecs⟩ := Prod.ext_iff.mp h
        simp only at hd hrecs
        subst hd; subst hrecs
        rcases List.mem_append.mp hr with hr | hr
        · exact Or.inl ⟨rs, List.mem_cons_self .., hr⟩
        · right
          exact ⟨hk, by simpa using hr⟩
      · exact Or.inl ⟨recs, List.mem_cons_of_mem _ h, hr⟩
    · rw [if_neg hk] at h
      rcases List.mem_cons.mp h with h | h
      · obtain ⟨hd, hrecs⟩ := Prod.ext_iff.mp h
        simp only at hd hrecs
        subst hd; subst hrecs
        exact Or.inl ⟨recs, List.mem_cons_self .., hr⟩
      · rcases ih h with ⟨recs₀, hmem, hr₀⟩ | hright
        · exact Or.inl ⟨recs₀, List.mem_cons_of_mem _ hmem, hr₀⟩
        · exact Or.inr hright

/-- Where a record inside the grouping fold's output comes from: the
accumulator, or one of the folded matches (keyed by exactly its date). -/
theorem mem_foldl_insertRecord :
    ∀ (l : List RegexMatch) (acc : Messages) {d : String} {recs : List Record} {r : Record},
      (d, recs) ∈ l.foldl (fun ag m => insertRecord ag (String.mk m.data)
        (String.mk m.hora, String.mk (pyStrip m.mensagem))) acc →
      r ∈ recs →
      (∃ recs₀, (d, recs₀) ∈ acc ∧ r ∈ recs₀) ∨
      (∃ m, m ∈ l ∧ String.mk m.data = d ∧
        (String.mk m.hora, String.mk (pyStrip m.mensagem)) = r) := by
  intro l
  induction l with
  | nil =>
    intro acc d recs r h hr
    exact Or.inl ⟨recs, h, hr⟩
  | cons m₀ tl ih =>
    intro acc d recs r h hr
    rw [List.foldl_cons] at h
    rcases ih _ h hr with ⟨recs₀, hmem, hr₀⟩ | ⟨m, hm, hd, hrec⟩
    · rcases mem_insertRecord hmem hr₀ with hacc | ⟨hd, hrr⟩
      · exact Or.inl hacc
      · exact Or.inr ⟨m₀, List.mem_cons_self .., hd.symm, hrr.symm⟩
    · exact Or.inr ⟨m, List.mem_cons_of_mem _ hm, hd, hrec⟩

/-- **C5.** Every record `(t, b)` stored under date key `d` reproduces a
timestamp that occurred literally in the source: `"[" ++ t ++ ", " ++ d ++ "]"`
is an infix of the input, with `t` and `d` coming from the same marker
occurrence (so no record is fabricated, and none is grouped under a date
other than its own marker's). -/
theorem record_timestamp_literal {raw_text : String} {d : String}
    {recs : List Record} {t b : String}
    (hmem : (d, recs) ∈ parseMessages raw_text) (hrec : (t, b) ∈ recs) :
    List.IsInfix ('[' :: (t.data ++ ',' :: ' ' :: (d.data ++ [']']))) raw_text.data := by
  unfold parseMessages at hmem
  rcases mem_foldl_insertRecord _ _ hmem hrec with ⟨recs₀, habs, -⟩ | ⟨m, hm, hd, hrec'⟩
  · cases habs
  · obtain ⟨q, -, hmatch⟩ := scanTimestampsAux_mem hm
    obtain ⟨hmark, j, -, -, hshape⟩ := matchTimestampAt_elim hmatch
    have hhora : m.hora = sub raw_text.data (q+1) (q+6) := by rw [hshape]
    have hdata : m.data = sub raw_text.data (q+8) (q+18) := by rw [hshape]
    have ht : t.data = sub raw_text.data (q+1) (q+6) := by
      have := congrArg Prod.fst hrec'
      simp only at this
      rw [← this, ← hhora]
    have hd' : d.data = sub raw_text.data (q+8) (q+18) := by
      rw [← hd, ← hdata]
    rw [ht, hd', ← marker_slice_decomposition hmark]
    exact sub_isInfix raw_text.data q (q+19)

theorem record_timestamp_literal_witness :
    ((("01/01/2024", [("09:00", "hi")]) : String × List Record) ∈
      parseMessages "[09:00, 01/01/2024] A: hi") ∧
    ((("09:00", "hi") : Record) ∈ ([("09:00", "hi")] : List Record)) ∧
    List.IsInfix ('[' :: (("09:00").data ++ ',' :: ' ' :: (("01/01/2024").data ++ [']'])))
      ("[09:00, 01/01/2024] A: hi").data :=
  ⟨by decide, by decide,
    @record_timestamp_literal "[09:00, 01/01/2024] A: hi" "01/01/2024"
      [("09:00", "hi")] "09:00" "hi" (by decide) (by decide)⟩

/-! ## `str.strip` lemmas -/

/-- `dropWhile` passes over a prefix made entirely of satisfying elements. -/
theorem dropWhile_all_append {p : Char → Bool} :
    ∀ {ws l : List Char}, (∀ c ∈ ws, p c = true) →
      (ws ++ l).dropWhile p = l.dropWhile p := by
  intro ws
  induction ws with
  | nil => intro l _; rfl
  | cons c t ih =>
    intro l h
    rw [List.cons_append, List.dropWhile_cons, if_pos (h c (List.mem_cons_self ..))]
    exact ih fun x hx => h x (List.mem_cons_of_mem _ hx)

/-- Appending a run of satisfying elements either rides along behind the
surviving part of `dropWhile`, or everything collapses. -/
theorem dropWhile_append_all {p : Char → Bool} :
    ∀ (l ws : List Char), (∀ c ∈ ws, p c = true) →
      (l ++ ws).dropWhile p = l.dropWhile p ++ ws ∨
      ((l ++ ws).dropWhile p = [] ∧ l.dropWhile p = []) := by
  intro l
  induction l with
  | nil =>
    intro ws h
    right
    constructor
    · have := dropWhile_all_append (l := ([] : List Char)) h
      simpa using this
    · rfl
  | cons c t ih =>
    intro ws h
    rw [List.cons_append, List.dropWhile_cons, List.dropWhile_cons]
    cases hc : p c with
    | true => simpa using ih ws h
    | false => simp

/-- Stripping ignores an all-whitespace prefix. -/
theorem pyStrip_ws_left {ws l : List Char} (h : ∀ c ∈ ws, pyIsSpace c = true) :
    pyStrip (ws ++ l) = pyStrip l := by
  unfold pyStrip
  rw [dropWhile_all_append h]

/-- Stripping ignores an all-whitespace suffix. -/
theorem pyStrip_ws_right {l ws : List Char} (h : ∀ c ∈ ws, pyIsSpace c = true) :
    pyStrip (l ++ ws) = pyStrip l := by
  unfold pyStrip
  rcases dropWhile_append_all l ws h with heq | ⟨heq, heq2⟩
  · rw [heq, List.reverse_append,
      dropWhile_all_append (fun c hc => h c (List.mem_reverse.mp hc))]
  · rw [heq, heq2]

/-! ## Slice helpers for the single-marker theorem -/

theorem sub_length_eq_drop (s : List Char) (i : Nat) : sub s i s.length = s.drop i := by
  unfold sub
  exact List.take_of_length_le (by rw [List.length_drop])

/-- A character of a slice sits at some in-range position of the source. -/
theorem mem_sub {s : List Char} {i j : Nat} {c : Char} (h : c ∈ sub s i j) :
    ∃ x, i ≤ x ∧ x < j ∧ s[x]? = some c := by
  unfold sub at h
  obtain ⟨n, hn, hv⟩ := List.mem_iff_getElem.mp h
  have hn' := hn
  rw [List.length_take, List.length_drop] at hn'
  have hnd : n < (s.drop i).length := by rw [List.length_drop]; omega
  have hns : i + n < s.length := by rw [List.length_drop] at hnd; omega
  refine ⟨i + n, by omega, by omega, ?_⟩
  rw [List.getElem_take, List.getElem_drop] at hv
  rw [List.getElem?_eq_getElem hns, hv]

/-- The whitespace run really is all whitespace. -/
theorem ws_run_all_ws {s : List Char} {i : Nat} :
    ∀ c ∈ sub s i (wsEnd s i), pyIsSpace c = true := by
  intro c hc
  obtain ⟨x, hx1, hx2, hxv⟩ := mem_sub hc
  obtain ⟨c', hc', hws⟩ := wsEnd_ws hx1 hx2
  rw [hxv] at hc'
  injection hc' with hc'
  rw [hc']
  exact hws

/-- When no marker occurs at or after `k`, whatever the body capture leaves
before the end of the string is whitespace (it can only be a final
newline matching Python's `$`, or nothing). -/
theorem bodyEnd_trailing_ws {s : List Char} {k : Nat}
    (h : ∀ x, k ≤ x → timestampMarkerAt s x = false) :
    ∀ c ∈ sub s (bodyEnd s k) s.length, pyIsSpace c = true := by
  intro c hc
  cases hf : findPos (fun e => timestampMarkerAt s e || dollarNlAt s e) s k with
  | none =>
    have hb : bodyEnd s k = s.length := by unfold bodyEnd; rw [hf]
    rw [hb] at hc
    unfold sub at hc
    simp at hc
  | some e =>
    have hb : bodyEnd s k = e := by unfold bodyEnd; rw [hf]
    obtain ⟨hke, helen, hpe, -⟩ := findPos_eq_some_iff.mp hf
    rw [Bool.or_eq_true] at hpe
    rcases hpe with hpe | hpe
    · rw [h e hke] at hpe; cases hpe
    · unfold dollarNlAt at hpe
      rw [Bool.and_eq_true, beq_iff_eq] at hpe
      obtain ⟨hlen, hnl⟩ := hpe
      rw [hb] at hc
      rw [← hlen] at hc
      rw [sub_singleton (charAt_eq_true.mp hnl)] at hc
      rw [List.mem_singleton] at hc
      rw [hc]
      decide

/-- Introduction form of a successful match (converse of
`matchTimestampAt_elim`). -/
theorem matchTimestampAt_intro {s : List Char} {q j : Nat}
    (hmark : timestampMarkerAt s q = true)
    (hcolon : findPos (fun i => charAt s i ':') s (q + 19) = some j)
    (hne : j ≠ q + 19) :
    matchTimestampAt s q = some ⟨sub s (q+1) (q+6), sub s (q+8) (q+18),
      sub s (wsEnd s (j+1)) (bodyEnd s (wsEnd s (j+1))),
      bodyEnd s (wsEnd s (j+1))⟩ := by
  unfold matchTimestampAt
  rw [hmark]
  simp only [if_true]
  split
  · rename_i hf
    rw [hcolon] at hf
    cases hf
  · rename_i j' hf
    rw [hcolon] at hf
    injection hf with hf
    subst hf
    rw [if_neg hne]

/-- One scanner step under known find and match results. -/
theorem scanTimestampsAux_step {s : List Char} {fuel p q : Nat} {m : RegexMatch}
    (hfind : findPos (fun x => (matchTimestampAt s x).isSome) s p = some q)
    (hm : matchTimestampAt s q = some m) :
    scanTimestampsAux s (fuel + 1) p = m :: scanTimestampsAux s fuel m.mend := by
  rw [scanTimestampsAux_succ]
  split
  · rename_i h
    rw [hfind] at h
    cases h
  · rename_i q' h
    rw [hfind] at h
    injection h with h
    subst h
    split
    · rename_i h2
      rw [hm] at h2
      cases h2
    · rename_i m' h2
      rw [hm] at h2
      injection h2 with h2
      subst h2
      rfl

/-- **C2 (amended).** For an input whose only well-formed marker sits at
position `q`, followed by an author field and colon separator (first colon at
`j`, strictly after the bracket) and no further marker, `parse` returns
exactly one date key (the marker's date slice) holding exactly one record,
whose time is the marker's time slice and whose body is the input's text
following the author-colon separator, trimmed of leading and trailing
whitespace.  (The claim as frozen says "following the marker", which would
include the author field and colon; the counterexample shows the code strips
those, so the body starts only after the separator.) -/
theorem parse_single_marker (raw_text : String) (q j : Nat)
    (hmark : timestampMarkerAt raw_text.data q = true)
    (huniq : ∀ x, x < raw_text.data.length → x ≠ q →
      timestampMarkerAt raw_text.data x = false)
    (hcolon : findPos (fun i => charAt raw_text.data i ':') raw_text.data (q + 19) = some j)
    (hauthor : j ≠ q + 19) :
    parseMessages raw_text =
      [(String.mk (sub raw_text.data (q+8) (q+18)),
        [(String.mk (sub raw_text.data (q+1) (q+6)),
          String.mk (pyStrip (raw_text.data.drop (j + 1))))])] := by
  have huniq' : ∀ x, x ≠ q → timestampMarkerAt raw_text.data x = false := by
    intro x hx
    by_cases hlt : x < raw_text.data.length
    · exact huniq x hlt hx
    · exact timestampMarkerAt_ge (by omega)
  have hqlen : q + 19 ≤ raw_text.data.length := timestampMarkerAt_length hmark
  obtain ⟨hj1, hj2, hjc, -⟩ := findPos_eq_some_iff.mp hcolon
  have hk1 : j + 1 ≤ wsEnd raw_text.data (j+1) := wsEnd_ge (by omega)
  have hk2 : wsEnd raw_text.data (j+1) ≤ raw_text.data.length := wsEnd_le _ _
  have he1 : wsEnd raw_text.data (j+1) ≤ bodyEnd raw_text.data (wsEnd raw_text.data (j+1)) :=
    bodyEnd_ge hk2
  have he2 : bodyEnd raw_text.data (wsEnd raw_text.data (j+1)) ≤ raw_text.data.length :=
    bodyEnd_le _ _
  have hmatch := matchTimestampAt_intro hmark hcolon hauthor
  have hfull : findPos (fun x => (matchTimestampAt raw_text.data x).isSome)
      raw_text.data 0 = some q := by
    rw [findPos_eq_some_iff]
    refine ⟨Nat.zero_le _, by omega, by rw [hmatch]; rfl, fun x _ hx => ?_⟩
    rw [matchTimestampAt_eq_none (huniq' x (by omega))]
    rfl
  have hnomark : ∀ x, wsEnd raw_text.data (j+1) ≤ x →
      timestampMarkerAt raw_text.data x = false := by
    intro x hx
    exact huniq' x (by omega)
  have hscan : finditerTimestamps raw_text.data =
      [⟨sub raw_text.data (q+1) (q+6), sub raw_text.data (q+8) (q+18),
        sub raw_text.data (wsEnd raw_text.data (j+1))
          (bodyEnd raw_text.data (wsEnd raw_text.data (j+1))),
        bodyEnd raw_text.data (wsEnd raw_text.data (j+1))⟩] := by
    unfold finditerTimestamps
    rw [scanTimestampsAux_step hfull hmatch]
    rw [scanTimestampsAux_eq_nil (fun x hx => by
      have hx' : bodyEnd raw_text.data (wsEnd raw_text.data (j+1)) ≤ x := hx
      exact hnomark x (by omega))]
  have hbody : pyStrip (raw_text.data.drop (j + 1)) =
      pyStrip (sub raw_text.data (wsEnd raw_text.data (j+1))
        (bodyEnd raw_text.data (wsEnd raw_text.data (j+1)))) := by
    rw [← sub_length_eq_drop]
    rw [sub_append hk1 hk2]
    rw [pyStrip_ws_left ws_run_all_ws]
    rw [sub_append he1 he2]
    rw [pyStrip_ws_right (bodyEnd_trailing_ws hnomark)]
  unfold parseMessages
  rw [hscan]
  simp only [List.foldl_cons, List.foldl_nil]
  rw [hbody]
  rfl

/-- **C2 (counterexample).** `"[09:00, 01/01/2024] A: hi"` holds exactly one
valid marker (at position 0, as the `List.all` conjunct certifies) followed
by body text and no further marker.  The stored record's body is `"hi"`,
while the input's text following the 19-character marker, trimmed, is
`"A: hi"` — the author field and colon are consumed by the pattern, not kept
in the body, refuting the claim as frozen. -/
theorem single_marker_body_cex :
    parseMessages "[09:00, 01/01/2024] A: hi" =
      [("01/01/2024", [("09:00", "hi")])] ∧
    String.mk (pyStrip (("[09:00, 01/01/2024] A: hi").data.drop 19)) = "A: hi" ∧
    ("hi" : String) ≠ "A: hi" ∧
    (List.range ("[09:00, 01/01/2024] A: hi").data.length).all
      (fun x => x == 0 ||
        !timestampMarkerAt ("[09:00, 01/01/2024] A: hi").data x) = true :=
  ⟨by decide, by decide, by decide, by decide⟩

theorem parse_single_marker_witness :
    timestampMarkerAt ("x [09:01, 03/04/2025] Bob: hey there").data 2 = true ∧
    (∀ x, x < ("x [09:01, 03/04/2025] Bob: hey there").data.length → x ≠ 2 →
      timestampMarkerAt ("x [09:01, 03/04/2025] Bob: hey there").data x = false) ∧
    findPos (fun i => charAt ("x [09:01, 03/04/2025] Bob: hey there").data i ':')
      ("x [09:01, 03/04/2025] Bob: hey there").data 21 = some 25 ∧
    (25 : Nat) ≠ 21 ∧
    parseMessages "x [09:01, 03/04/2025] Bob: hey there" =
      [("03/04/2025", [("09:01", "hey there")])] :=
  ⟨by decide, by decide, by decide, by decide, by
    exact parse_single_marker "x [09:01, 03/04/2025] Bob: hey there" 2 25
      (by decide) (by decide) (by decide) (by decide)⟩

/-! ## Renderer lemmas -/

/-- Splitting passes over newline-free text, accumulating it into the
current line. -/
theorem splitNlAux_append :
    ∀ (l r acc : List Char), '\n' ∉ l →
      splitNlAux (l ++ r) acc = splitNlAux r (l.reverse ++ acc) := by
  intro l
  induction l with
  | nil => intro r acc _; simp
  | cons c t ih =>
    intro r acc hnl
    have hc : ¬(c = '\n') := by
      intro h
      rw [h] at hnl
      exact hnl (List.mem_cons_self ..)
    rw [List.cons_append, splitNlAux, if_neg hc,
      ih r (c :: acc) (fun h => hnl (List.mem_cons_of_mem _ h))]
    simp

/-- Re-splitting a `"\n"`-join of newline-free lines recovers exactly the
lines. -/
theorem splitNl_joinNl :
    ∀ (ls : List (List Char)), ls ≠ [] → (∀ l ∈ ls, '\n' ∉ l) →
      splitNl (joinNl ls) = ls := by
  intro ls
  induction ls with
  | nil => intro h _; cases h rfl
  | cons l tl ih =>
    intro _ hnl
    cases tl with
    | nil =>
      show splitNlAux (joinNl [l]) [] = [l]
      have hj : joinNl [l] = l := rfl
      rw [hj]
      have ha := splitNlAux_append l [] [] (hnl l (List.mem_cons_self ..))
      rw [List.append_nil] at ha
      rw [ha, splitNlAux]
      simp
    | cons l₂ tl₂ =>
      have hj : joinNl (l :: l₂ :: tl₂) = l ++ '\n' :: joinNl (l₂ :: tl₂) := rfl
      show splitNlAux (joinNl (l :: l₂ :: tl₂)) [] = l :: l₂ :: tl₂
      rw [hj, splitNlAux_append l _ [] (hnl l (List.mem_cons_self ..)),
        splitNlAux, if_pos rfl]
      simp only [List.append_nil, List.reverse_reverse]
      congr 1
      exact ih (by simp) (fun x hx => hnl x (List.mem_cons_of_mem _ hx))

/-! ## Prefix-test lemmas -/

theorem isPrefixOf_append_self (l t : List Char) : l.isPrefixOf (l ++ t) = true :=
  List.isPrefixOf_iff_prefix.mpr (List.prefix_append l t)

theorem isPrefixOf_cons_ne {a b : Char} (l t : List Char) (h : (a == b) = false) :
    (a :: l).isPrefixOf (b :: t) = false := by
  simp [List.isPrefixOf, h]

theorem isPrefixOf_nil_false (a : Char) (l : List Char) :
    (a :: l).isPrefixOf ([] : List Char) = false := by
  simp [List.isPrefixOf]

theorem hdr_not_prefix_dash (x : List Char) :
    ("## ").data.isPrefixOf ('-' :: x) = false :=
  isPrefixOf_cons_ne _ _ (by decide)

theorem hdr_not_prefix_space (x : List Char) :
    ("## ").data.isPrefixOf (' ' :: x) = false :=
  isPrefixOf_cons_ne _ _ (by decide)

theorem time_not_prefix_hash (x : List Char) :
    ("- **").data.isPrefixOf ('#' :: x) = false :=
  isPrefixOf_cons_ne _ _ (by decide)

theorem time_not_prefix_space (x : List Char) :
    ("- **").data.isPrefixOf (' ' :: x) = false :=
  isPrefixOf_cons_ne _ _ (by decide)

/-! ## No-line-break lemmas for rendered lines -/

/-- Every line `splitlines` produces is free of line-break characters. -/
theorem splitlinesAux_no_break :
    ∀ (s acc : List Char), (∀ c ∈ acc, isPyLineBreak c = false) →
      ∀ l ∈ splitlinesAux s acc, ∀ c ∈ l, isPyLineBreak c = false := by
  intro s acc
  induction s, acc using splitlinesAux.induct with
  | case1 acc =>
    intro hacc l hl c hc
    rw [splitlinesAux, List.mem_singleton] at hl
    subst hl
    exact hacc c (List.mem_reverse.mp hc)
  | case2 c₀ t acc hbr ih =>
    intro hacc l hl c hc
    rw [splitlinesAux, if_pos hbr] at hl
    rcases List.mem_cons.mp hl with hl | hl
    · subst hl
      exact hacc c (List.mem_reverse.mp hc)
    · split at hl
      · cases hl
      · rename_i hne
        exact ih hne (fun x hx => absurd hx (List.not_mem_nil x)) l hl c hc
  | case3 c₀ t acc hbr ih =>
    intro hacc l hl c hc
    rw [splitlinesAux, if_neg hbr] at hl
    refine ih ?_ l hl c hc
    intro x hx
    rcases List.mem_cons.mp hx with hx | hx
    · subst hx
      exact Bool.eq_false_iff.mpr hbr
    · exact hacc x hx

theorem pySplitlines_no_nl {body : List Char} :
    ∀ l ∈ pySplitlines body, '\n' ∉ l := by
  intro l hl hmem
  unfold pySplitlines at hl
  split at hl
  · cases hl
  · have := splitlinesAux_no_break body []
      (fun x hx => absurd hx (List.not_mem_nil x)) l hl '\n' hmem
    exact absurd this (by decide)

/-- A lexically well-formed date key contains no newline (it is all digits
and slashes). -/
theorem dateKeyWF_no_nl {d : String} (h : dateKeyWF d = true) : '\n' ∉ d.data := by
  unfold dateKeyWF at h
  split at h
  · rename_i d1 d2 s1 m1 m2 s2 y1 y2 y3 y4 heq
    rw [heq]
    simp only [Bool.and_eq_true, beq_iff_eq] at h
    obtain ⟨⟨⟨⟨⟨⟨⟨⟨⟨h1, h2⟩, h3⟩, h4⟩, h5⟩, h6⟩, h7⟩, h8⟩, h9⟩, h10⟩ := h
    intro hmem
    simp only [List.mem_cons, List.not_mem_nil, or_false] at hmem
    rcases hmem with h | h | h | h | h | h | h | h | h | h
    · subst h; exact absurd h1 (by decide)
    · subst h; exact absurd h2 (by decide)
    · subst h; exact absurd h3 (by decide)
    · subst h; exact absurd h4 (by decide)
    · subst h; exact absurd h5 (by decide)
    · subst h; exact absurd h6 (by decide)
    · subst h; exact absurd h7 (by decide)
    · subst h; exact absurd h8 (by decide)
    · subst h; exact absurd h9 (by decide)
    · subst h; exact absurd h10 (by decide)
  · cases h

/-- A lexically well-formed record time contains no newline. -/
theorem timeWF_no_nl {t : String} (h : timeWF t = true) : '\n' ∉ t.data := by
  unfold timeWF at h
  split at h
  · rename_i h1c h2c s1 m1 m2 heq
    rw [heq]
    simp only [Bool.and_eq_true, beq_iff_eq] at h
    obtain ⟨⟨⟨⟨h1, h2⟩, h3⟩, h4⟩, h5⟩ := h
    intro hmem
    simp only [List.mem_cons, List.not_mem_nil, or_false] at hmem
    rcases hmem with h | h | h | h | h
    · subst h; exact absurd h1 (by decide)
    · subst h; exact absurd h2 (by decide)
    · subst h; exact absurd h3 (by decide)
    · subst h; exact absurd h4 (by decide)
    · subst h; exact absurd h5 (by decide)
  · cases h

/-- Under well-formed keys and times, every markdown line of a date group is
newline-free (so `"\n"`-joining and re-splitting is lossless). -/
theorem groupMdLines_no_nl {g : String × List Record}
    (hk : dateKeyWF g.1 = true) (ht : ∀ r ∈ g.2, timeWF r.1 = true) :
    ∀ line ∈ groupMdLines g, '\n' ∉ line := by
  intro line hline hmem
  unfold groupMdLines at hline
  rcases List.mem_cons.mp hline with hline | hline
  · subst hline
    rcases List.mem_append.mp hmem with hmem | hmem
    · exact absurd hmem (by decide)
    · exact dateKeyWF_no_nl hk hmem
  · rcases List.mem_append.mp hline with hline | hline
    · obtain ⟨rls, hrls, hlin⟩ := List.mem_flatten.mp hline
      obtain ⟨r, hr, hrec⟩ := List.mem_map.mp hrls
      subst hrec
      unfold recordMdLines at hlin
      rcases List.mem_cons.mp hlin with hlin | hlin
      · subst hlin
        rcases List.mem_append.mp hmem with hmem | hmem
        · rcases List.mem_append.mp hmem with hmem | hmem
          · exact absurd hmem (by decide)
          · exact timeWF_no_nl (ht r hr) hmem
        · exact absurd hmem (by decide)
      · obtain ⟨l₀, hl₀, heq⟩ := List.mem_map.mp hlin
        subst heq
        rcases List.mem_append.mp hmem with hmem | hmem
        · exact absurd hmem (by decide)
        · exact pySplitlines_no_nl l₀ hl₀ hmem
    · rw [List.mem_singleton] at hline
      subst hline
      cases hmem

/-! ## Line-count lemmas -/

/-- A record's markdown lines contain no date-header line. -/
theorem hdr_filter_record (r : Record) :
    (recordMdLines r).filter (fun line => ("## ").data.isPrefixOf line) = [] := by
  rw [List.filter_eq_nil_iff]
  intro a ha
  unfold recordMdLines at ha
  rcases List.mem_cons.mp ha with ha | ha
  · subst ha
    intro hp
    have hp' : ("## ").data.isPrefixOf
        ('-' :: ((' ' :: '*' :: '*' :: r.1.data) ++ ("**").data)) = true := hp
    rw [hdr_not_prefix_dash] at hp'
    cases hp'
  · obtain ⟨l₀, hl₀, heq⟩ := List.mem_map.mp ha
    subst heq
    intro hp
    have hp' : ("## ").data.isPrefixOf (' ' :: (' ' :: l₀)) = true := hp
    rw [hdr_not_prefix_space] at hp'
    cases hp'

/-- A record's markdown lines contain exactly one time-marker line. -/
theorem time_filter_record (r : Record) :
    (recordMdLines r).filter (fun line => ("- **").data.isPrefixOf line) =
      [("- **").data ++ r.1.data ++ ("**").data] := by
  unfold recordMdLines
  simp only [List.filter_cons]
  have hpos : (("- **").data.isPrefixOf
      (("- **").data ++ r.1.data ++ ("**").data)) = true := by
    rw [List.append_assoc]
    exact isPrefixOf_append_self _ _
  rw [if_pos hpos]
  congr 1
  rw [List.filter_eq_nil_iff]
  intro a ha
  obtain ⟨l₀, hl₀, heq⟩ := List.mem_map.mp ha
  subst heq
  intro hp
  have hp' : ("- **").data.isPrefixOf (' ' :: (' ' :: l₀)) = true := hp
  rw [time_not_prefix_space] at hp'
  cases hp'

/-- No record contributes a date-header line. -/
theorem hdr_filter_records (rs : List Record) :
    ((rs.map recordMdLines).flatten.filter
      (fun line => ("## ").data.isPrefixOf line)) = [] := by
  induction rs with
  | nil => rfl
  | cons r tl ih =>
    simp only [List.map_cons, List.flatten_cons, List.filter_append]
    rw [hdr_filter_record, ih]
    rfl

/-- Each date group renders exactly one date-header line. -/
theorem hdr_count_group (g : String × List Record) :
    ((groupMdLines g).filter (fun line => ("## ").data.isPrefixOf line)).length = 1 := by
  have h1 : (groupMdLines g).filter (fun line => ("## ").data.isPrefixOf line) =
      [("## ").data ++ g.1.data] := by
    unfold groupMdLines
    simp only [List.filter_cons]
    rw [if_pos (isPrefixOf_append_self ("## ").data g.1.data)]
    congr 1
    rw [List.filter_append, hdr_filter_records g.2, List.nil_append]
    decide
  rw [h1]
  rfl

/-- The records of a group render one time-marker line each. -/
theorem time_count_records (rs : List Record) :
    (((rs.map recordMdLines).flatten).filter
      (fun line => ("- **").data.isPrefixOf line)).length = rs.length := by
  induction rs with
  | nil => rfl
  | cons r tl ih =>
    simp only [List.map_cons, List.flatten_cons, List.filter_append, List.length_append]
    rw [time_filter_record, ih]
    simp [Nat.add_comm]

/-- Each date group renders exactly as many time-marker lines as it has
records. -/
theorem time_count_group (g : String × List Record) :
    ((groupMdLines g).filter (fun line => ("- **").data.isPrefixOf line)).length =
      g.2.length := by
  unfold groupMdLines
  simp only [List.filter_cons]
  have hne₀ : (("- **").data.isPrefixOf (("## ").data ++ g.1.data)) = false :=
    time_not_prefix_hash ('#' :: ' ' :: g.1.data)
  rw [if_neg (by simp [hne₀])]
  rw [List.filter_append]
  have hnil : (([([] : List Char)]).filter
      (fun line => ("- **").data.isPrefixOf line)) = [] := by decide
  rw [hnil, List.append_nil, time_count_records]

theorem hdr_count_flatten (ms : Messages) :
    (((ms.map groupMdLines).flatten).filter
      (fun line => ("## ").data.isPrefixOf line)).length = ms.length := by
  induction ms with
  | nil => rfl
  | cons g tl ih =>
    simp only [List.map_cons, List.flatten_cons, List.filter_append, List.length_append]
    rw [hdr_count_group, ih]
    simp [Nat.add_comm]

theorem time_count_flatten (ms : Messages) :
    (((ms.map groupMdLines).flatten).filter
      (fun line => ("- **").data.isPrefixOf line)).length =
      (ms.map (fun g => g.2.length)).sum := by
  induction ms with
  | nil => rfl
  | cons g tl ih =>
    simp only [List.map_cons, List.flatten_cons, List.filter_append, List.length_append,
      List.sum_cons]
    rw [time_count_group, ih]

/-- **C8.** Round-trip count preservation: for every ParsedTranscript (whose
keys are lexically `DD/MM/YYYY` and whose record times are `HH:MM`, per the
data model), the rendered structured text contains exactly as many
date-header lines (`"## "`-prefixed) as the mapping has keys, and exactly as
many time-marker lines (`"- **"`-prefixed) as the mapping has records in
total. -/
theorem to_markdown_line_counts (messages : Messages)
    (hkeys : ∀ g ∈ messages, dateKeyWF g.1 = true)
    (htimes : ∀ g ∈ messages, ∀ r ∈ g.2, timeWF r.1 = true) :
    countPrefixLines "## " (toMarkdownOf messages) = messages.length ∧
    countPrefixLines "- **" (toMarkdownOf messages) =
      (messages.map (fun g => g.2.length)).sum := by
  cases messages with
  | nil => exact ⟨by decide, by decide⟩
  | cons g tl =>
    have hnl : ∀ l ∈ ((g :: tl).map groupMdLines).flatten, '\n' ∉ l := by
      intro l hl
      obtain ⟨gl, hgl, hlg⟩ := List.mem_flatten.mp hl
      obtain ⟨g₀, hg₀, heq⟩ := List.mem_map.mp hgl
      subst heq
      exact groupMdLines_no_nl (hkeys g₀ hg₀) (htimes g₀ hg₀) l hlg
    have hne : ((g :: tl).map groupMdLines).flatten ≠ [] := by
      simp only [List.map_cons, List.flatten_cons]
      unfold groupMdLines
      simp
    constructor
    · show ((splitNl (joinNl (((g :: tl).map groupMdLines).flatten))).filter
        (fun line => ("## ").data.isPrefixOf line)).length = (g :: tl).length
      rw [splitNl_joinNl _ hne hnl]
      exact hdr_count_flatten (g :: tl)
    · show ((splitNl (joinNl (((g :: tl).map groupMdLines).flatten))).filter
        (fun line => ("- **").data.isPrefixOf line)).length =
        ((g :: tl).map (fun g => g.2.length)).sum
      rw [splitNl_joinNl _ hne hnl]
      exact time_count_flatten (g :: tl)

theorem to_markdown_line_counts_witness :
    (∀ g ∈ ([("01/01/2024", [("09:00", "hi"), ("10:30", "a\nb")]),
             ("02/01/2024", [("11:11", "")])] : Messages), dateKeyWF g.1 = true) ∧
    (∀ g ∈ ([("01/01/2024", [("09:00", "hi"), ("10:30", "a\nb")]),
             ("02/01/2024", [("11:11", "")])] : Messages),
      ∀ r ∈ g.2, timeWF r.1 = true) ∧
    (countPrefixLines "## " (toMarkdownOf
        [("01/01/2024", [("09:00", "hi"), ("10:30", "a\nb")]),
         ("02/01/2024", [("11:11", "")])]) =
      ([("01/01/2024", [("09:00", "hi"), ("10:30", "a\nb")]),
        ("02/01/2024", [("11:11", "")])] : Messages).length ∧
     countPrefixLines "- **" (toMarkdownOf
        [("01/01/2024", [("09:00", "hi"), ("10:30", "a\nb")]),
         ("02/01/2024", [("11:11", "")])]) =
      (([("01/01/2024", [("09:00", "hi"), ("10:30", "a\nb")]),
         ("02/01/2024", [("11:11", "")])] : Messages).map
        (fun g => g.2.length)).sum) :=
  ⟨by decide, by decide,
    to_markdown_line_counts
      [("01/01/2024", [("09:00", "hi"), ("10:30", "a\nb")]),
       ("02/01/2024", [("11:11", "")])] (by decide) (by decide)⟩
